import Mathlib

/-!
Verification development for the `hantu` byte-level mutation engine
(`src/lib.rs`).  The Rust code is shallowly embedded: `usize` becomes `Nat`
with explicit reduction modulo `2 ^ 64`, byte vectors become `List Nat`
(entries intended `< 256`), and operations that can panic in Rust (failed
`assert!`, `unwrap()` of a missing resource, unsigned-subtraction underflow,
`unreachable!()`) return `Option` with `none` at the panic.  Slice indexing
is modelled with the total `List.set`/`List.getD`; every theorem that relies
on an index being written carries the length precondition under which the
Rust indexing is in bounds.
-/

namespace Hantu

/-- Modulus of `usize` on the 64-bit targets the crate supports
(`x86_64` / `aarch64`). -/
def usizeSize : Nat := 2 ^ 64

/-- Value of `core::usize::MAX`. -/
def usizeMax : Nat := usizeSize - 1

/-- Subtraction of `usize` values as it behaves in the Rust code: `none`
models the underflow panic of a debug build (the spec calls this
"underflows catastrophically"). -/
def checkedSub (a b : Nat) : Option Nat :=
  if b ≤ a then some (a - b) else none

/-- The constant `BYTE_POS` (lib.rs line 10): the eight single-bit masks. -/
def BYTE_POS : List Nat := [1, 2, 4, 8, 16, 32, 64, 128]

/-- The constant `BYTE_RANGE` (lib.rs line 11): the window widths. -/
def BYTE_RANGE : List Nat := [2, 4, 8]

/-- First xorshift substep of `Rng::rand`: `s ^= s << 13` (and `s ^= s << 43`
for `k = 43`), with the `usize` truncation of the shifted value made
explicit. -/
def stepXL (k s : Nat) : Nat := (s ^^^ (s <<< k)) % usizeSize

/-- Middle xorshift substep of `Rng::rand`: `s ^= s >> 17`. The reduction is
a no-op for states below `2 ^ 64` but keeps the `usize` semantics explicit. -/
def stepXR (k s : Nat) : Nat := (s ^^^ (s >>> k)) % usizeSize

/-- State update performed by one call of `Rng::rand` (lib.rs lines 65-71):
`s ^= s << 13; s ^= s >> 17; s ^= s << 43` over the machine word. -/
def rngStep (s : Nat) : Nat := stepXL 43 (stepXR 17 (stepXL 13 s))

/-- `Rng::rand` (lib.rs lines 65-71): returns the pre-advance state and the
advanced state. -/
def rand (s : Nat) : Nat × Nat := (s, rngStep s)

/-- Iterated `rngStep`: the PRNG state after `n` calls to `rand`, which is
also the value returned by draw number `n` (the returned value is the
pre-advance state). -/
def rngIter : Nat → Nat → Nat
  | 0, s => s
  | n + 1, s => rngIter n (rngStep s)

/-- `Rng::new` (lib.rs lines 56-62).  The hardware counter read
(`get_rdtsc`) is non-deterministic, so it is passed in as the parameter
`counter`; a zero seed falls back to the counter-derived state. -/
def rngNew (counter seed : Nat) : Nat :=
  if seed = 0 then (0x5fd89eda3130256d ^^^ counter) % usizeSize else seed

/-- `Rng::gen_range` (lib.rs lines 74-84), inclusive on both ends.  `none`
models the `assert!(max >= min)` panic. -/
def genRange (rng min max : Nat) : Option (Nat × Nat) :=
  if max < min then none
  else if min = max then some (min, rng)
  else if min = 0 ∧ max = usizeMax then some (rand rng)
  else some (min + (rand rng).1 % (max - min + 1), (rand rng).2)

/-- `Rng::gen_byte` (lib.rs lines 87-89): `(rand() % 255) as u8`. -/
def genByte (rng : Nat) : Nat × Nat :=
  ((rand rng).1 % 255, (rand rng).2)

/-- `Rng::choose` (lib.rs lines 92-95) specialised to `Nat` entries: modulo
index selection.  All call sites pass a non-empty constant list, so the
`getD` default is never consulted. -/
def choose (rng : Nat) (entries : List Nat) : Nat × Nat :=
  (entries.getD ((rand rng).1 % entries.length) 0, (rand rng).2)

/-- `Rng::bool` (lib.rs lines 98-100): `choose(&[true, false])`, i.e. `true`
exactly when the draw is even. -/
def rngBool (rng : Nat) : Bool × Nat :=
  ((rand rng).1 % 2 == 0, (rand rng).2)

/-- Little-endian bytes of one machine word, as produced by
`usize::to_ne_bytes` on the crate's little-endian targets. -/
def neBytes (x : Nat) : List Nat :=
  (List.range 8).map (fun i => x >>> (8 * i) % 256)

/-- `Rng::fill_bytes` (lib.rs lines 103-107): append whole words of `rand`
output until the buffer reaches `sz` bytes. -/
def fillBytes (rng : Nat) (buf : List Nat) (sz : Nat) : List Nat × Nat :=
  if buf.length < sz then
    fillBytes (rngStep rng) (buf ++ neBytes rng) sz
  else
    (buf, rng)
termination_by sz - buf.length
decreasing_by
  simp only [List.length_append, neBytes, List.length_map, List.length_range]
  omega

/-- `TestCase` (lib.rs lines 14-17): the working buffer (`data`) plus its
separately tracked logical length (`size`). -/
structure TestCase where
  data : List Nat
  size : Nat
deriving Repr, DecidableEq

/-- `TestCase::default` (lib.rs lines 19-26): `Vec::with_capacity(4096)` is
an EMPTY vector (capacity only), while `size` is set to `4096`. -/
def TestCase.default : TestCase := ⟨[], 4096⟩

/-- `TestCase::new` (lib.rs lines 29-34): copies the bytes and records their
count. -/
def TestCase.new (d : List Nat) : TestCase := ⟨d, d.length⟩

/-- The sixteen strategy tags (lib.rs lines 111-128). -/
inductive Mutator where
  | BitFlip | ByteFlip | NegateByte | SwapNeighbors | SwapEndianness
  | Arithmetic | DeleteBytes | DeleteRange | CopyBytes | CopyRange
  | InsertConstants | Truncate | Append | Set | Splice | InsertFromDict
deriving Repr, DecidableEq

/-- Modelled from the spec: the 8-bit "interesting constant" table
`MAGIC_8` lives in `src/magic.rs`, which is not part of the provided
sources; the spec (sect. 1) treats the tables as external static data.  Only
the byte width of the entries matters for the claims below, so
boundary-style values stand in for the real table. -/
def MAGIC_8 : List Nat := [0, 1, 0x7f, 0x80, 0xff]

/-- Modelled from the spec: the 16-bit constant table of `src/magic.rs`
(external static data; only entry width matters here). -/
def MAGIC_16 : List Nat := [0, 1, 0x7fff, 0x8000, 0xffff]

/-- Modelled from the spec: the 32-bit constant table of `src/magic.rs`
(external static data; only entry width matters here). -/
def MAGIC_32 : List Nat := [0, 1, 0x7fffffff, 0x80000000, 0xffffffff]

/-- Modelled from the spec: the 64-bit constant table of `src/magic.rs`
(external static data; only entry width matters here). -/
def MAGIC_64 : List Nat := [0, 1, 0x7fffffffffffffff, 0x8000000000000000, 0xffffffffffffffff]

/-- Strategy state: the working buffer plus the PRNG state.  The token
dictionary and the corpus are passed separately to the two strategies that
use them. -/
abbrev St := TestCase × Nat

/-- Runs an optionally failing body `n` times, the embedding of the Rust
loop `for _ in 0..n` over a body that can panic. -/
def iterM (f : α → Option α) : Nat → α → Option α
  | 0, s => some s
  | n + 1, s => (f s).bind (iterM f n)

/-- `MutationEngine::mutation_size` (lib.rs lines 194-197).  The Rust code
computes `(size as f64 * ((gen_range(0,10) + 1) as f64 * 0.01)) as usize + 1`;
for the buffer sizes reachable here (far below `2 ^ 53 / 11`) the float
computation agrees exactly with the integer `size * (r + 1) / 100`, which is
how it is embedded. -/
def mutationSize (tc : TestCase) (rng : Nat) : Option (Nat × Nat) := do
  let (r, rng1) ← genRange rng 0 10
  some (tc.size * (r + 1) / 100 + 1, rng1)

/-- One iteration of `MutationEngine::bit_flip` (lib.rs lines 263-267):
XOR a random byte with a random single-bit mask.  `test_case.size - 1` is
the unsigned subtraction that underflows when the buffer is empty. -/
def bitFlipStep (s : St) : Option St := do
  let b ← checkedSub s.1.size 1
  let (idx, r1) ← genRange s.2 0 b
  let (pos, r2) := choose r1 BYTE_POS
  some (⟨s.1.data.set idx (Nat.xor (s.1.data.getD idx 0) pos), s.1.size⟩, r2)

/-- `MutationEngine::bit_flip` (lib.rs lines 262-268). -/
def bitFlip (s : St) : Option St := do
  let (m, r1) ← mutationSize s.1 s.2
  iterM bitFlipStep m (s.1, r1)

/-- One iteration of `MutationEngine::byte_flip` (lib.rs lines 271-274). -/
def byteFlipStep (s : St) : Option St := do
  let b ← checkedSub s.1.size 1
  let (idx, r1) ← genRange s.2 0 b
  let (v, r2) := genByte r1
  some (⟨s.1.data.set idx (Nat.xor (s.1.data.getD idx 0) v), s.1.size⟩, r2)

/-- `MutationEngine::byte_flip` (lib.rs lines 270-275). -/
def byteFlip (s : St) : Option St := do
  let (m, r1) ← mutationSize s.1 s.2
  iterM byteFlipStep m (s.1, r1)

/-- Writes `v` into positions `idx .. idx + len - 1`, the embedding of the
`iter_mut().for_each` over the slice `data[idx..idx + len]`. -/
def setRange (d : List Nat) (idx len v : Nat) : List Nat :=
  (List.range len).foldl (fun acc i => acc.set (idx + i) v) d

/-- `MutationEngine::set` (lib.rs lines 277-284): one random byte value
written over a random run.  Both subtractions of the run-length bound
`(size - idx) - 1` are explicit. -/
def setMut (s : St) : Option St := do
  let (v, r1) := genByte s.2
  let b ← checkedSub s.1.size 1
  let (idx, r2) ← genRange r1 0 b
  let b1 ← checkedSub s.1.size idx
  let b2 ← checkedSub b1 1
  let (len, r3) ← genRange r2 0 b2
  some (⟨setRange s.1.data idx len v, s.1.size⟩, r3)

/-- One iteration of `MutationEngine::negate_byte` (lib.rs lines 287-290):
bitwise complement of one random byte (`!x` on `u8` is `x ^ 0xff`). -/
def negateByteStep (s : St) : Option St := do
  let b ← checkedSub s.1.size 1
  let (idx, r1) ← genRange s.2 0 b
  some (⟨s.1.data.set idx (Nat.xor (s.1.data.getD idx 0) 0xff), s.1.size⟩, r1)

/-- `MutationEngine::negate_byte` (lib.rs lines 286-291). -/
def negateByte (s : St) : Option St := do
  let (m, r1) ← mutationSize s.1 s.2
  iterM negateByteStep m (s.1, r1)

/-- Swap of two list positions, the embedding of `Vec::swap`. -/
def listSwap (d : List Nat) (i j : Nat) : List Nat :=
  (d.set i (d.getD j 0)).set j (d.getD i 0)

/-- One iteration of `MutationEngine::swap_neighbors` (lib.rs lines
294-297): swap position `idx` with `idx + 1`, `idx` drawn below
`size - 2`. -/
def swapNeighborsStep (s : St) : Option St := do
  let b ← checkedSub s.1.size 2
  let (idx, r1) ← genRange s.2 0 b
  some (⟨listSwap s.1.data idx (idx + 1), s.1.size⟩, r1)

/-- `MutationEngine::swap_neighbors` (lib.rs lines 293-298). -/
def swapNeighbors (s : St) : Option St := do
  let (m, r1) ← mutationSize s.1 s.2
  iterM swapNeighborsStep m (s.1, r1)

/-- Inner loop of `MutationEngine::swap_with_width` (lib.rs lines 304-309):
reverse the `w`-byte window at `idx` by swapping `idx + i` with
`idx + (w - i - 1)` for `i` below `w / 2`. -/
def reverseWindow (d : List Nat) (idx w : Nat) : List Nat :=
  (List.range (w >>> 1)).foldl (fun acc i => listSwap acc (idx + i) (idx + (w - i - 1))) d

/-- One iteration of `MutationEngine::swap_with_width` (lib.rs lines
301-310): pick a width from `BYTE_RANGE`, a window position below
`size - width`, and reverse that window. -/
def swapWithWidthStep (s : St) : Option St := do
  let (w, r1) := choose s.2 BYTE_RANGE
  let b ← checkedSub s.1.size w
  let (idx, r2) ← genRange r1 0 b
  some (⟨reverseWindow s.1.data idx w, s.1.size⟩, r2)

/-- `MutationEngine::swap_with_width` (lib.rs lines 300-311), the
SwapEndianness strategy. -/
def swapWithWidth (s : St) : Option St := do
  let (m, r1) ← mutationSize s.1 s.2
  iterM swapWithWidthStep m (s.1, r1)

/-- Big-endian read of the `w`-byte window at `idx`, the bit pattern built
by the shift-or chains of `MutationEngine::arithmetic` (lib.rs lines
322-323, 333-337, 350-358). -/
def beReadPat (d : List Nat) (idx w : Nat) : Nat :=
  (List.range w).foldl (fun acc i => acc * 256 + d.getD (idx + i) 0) 0

/-- Two's-complement reinterpretation of a `bits`-bit pattern, the meaning
of the `as i16`/`as i32`/`as i64` views in `MutationEngine::arithmetic`. -/
def toSigned (bits p : Nat) : Int :=
  if p < 2 ^ (bits - 1) then (p : Int) else (p : Int) - 2 ^ bits

/-- Big-endian write-back of the `w`-byte two's-complement pattern `p`, the
embedding of the `(val >> (8 * (sz - i - 1))) & 0xff` stores of
`MutationEngine::arithmetic` and `insert_constants`. -/
def beWrite (d : List Nat) (idx w p : Nat) : List Nat :=
  (List.range w).foldl (fun acc i => acc.set (idx + i) (p / 256 ^ (w - 1 - i) % 256)) d

/-- One window update of `MutationEngine::arithmetic` (lib.rs lines
320-373): interpret the `w`-byte window at `idx` as a big-endian signed
integer, add 1 (`op = true`) or subtract 1 with wraparound
(`wrapping_add`/`wrapping_sub`), and store the result big-endian.  The
wrapped two's-complement bit pattern is `(v ± 1).emod (2 ^ bits)`. -/
def arithWindow (w : Nat) (op : Bool) (d : List Nat) (idx : Nat) : List Nat :=
  let bits := 8 * w
  let v : Int := toSigned bits (beReadPat d idx w)
  let v2 : Int := if op then v + 1 else v - 1
  let p2 : Nat := (v2 % ((2 : Int) ^ bits)).toNat
  beWrite d idx w p2

/-- One iteration of `MutationEngine::arithmetic` (lib.rs lines 314-374):
width from `BYTE_RANGE`, window position below `size - width`, coinflip for
add/subtract, then the `match` over the width (default branch
`unreachable!()`). -/
def arithmeticStep (s : St) : Option St := do
  let (w, r1) := choose s.2 BYTE_RANGE
  let b ← checkedSub s.1.size w
  let (idx, r2) ← genRange r1 0 b
  let (op, r3) := rngBool r2
  match w with
  | 2 => some (⟨arithWindow 2 op s.1.data idx, s.1.size⟩, r3)
  | 4 => some (⟨arithWindow 4 op s.1.data idx, s.1.size⟩, r3)
  | 8 => some (⟨arithWindow 8 op s.1.data idx, s.1.size⟩, r3)
  | _ => none

/-- `MutationEngine::arithmetic` (lib.rs lines 313-375). -/
def arithmetic (s : St) : Option St := do
  let (m, r1) ← mutationSize s.1 s.2
  iterM arithmeticStep m (s.1, r1)

/-- One iteration of `MutationEngine::delete_single_bytes` (lib.rs lines
378-382): remove one byte at a fresh random index and decrement the tracked
size. -/
def deleteSingleStep (s : St) : Option St := do
  let b ← checkedSub s.1.size 1
  let (idx, r1) ← genRange s.2 0 b
  some (⟨s.1.data.eraseIdx idx, s.1.size - 1⟩, r1)

/-- `MutationEngine::delete_single_bytes` (lib.rs lines 377-383), the
DeleteBytes strategy. -/
def deleteSingleBytes (s : St) : Option St := do
  let (m, r1) ← mutationSize s.1 s.2
  iterM deleteSingleStep m (s.1, r1)

/-- `Vec::drain(idx..idx + len)`: remove that contiguous range. -/
def removeRange (d : List Nat) (idx len : Nat) : List Nat :=
  d.take idx ++ d.drop (idx + len)

/-- `MutationEngine::delete_byte_range` (lib.rs lines 385-389), the
DeleteRange strategy.  Note the tracked `size` is NOT updated. -/
def deleteByteRange (s : St) : Option St := do
  let (m, r1) ← mutationSize s.1 s.2
  let b ← checkedSub s.1.size m
  let (idx, r2) ← genRange r1 0 b
  some (⟨removeRange s.1.data idx m, s.1.size⟩, r2)

/-- One iteration of `MutationEngine::copy_single_bytes` (lib.rs lines
392-396): copy one random source byte over one random destination byte. -/
def copySingleStep (s : St) : Option St := do
  let b ← checkedSub s.1.size 1
  let (src, r1) ← genRange s.2 0 b
  let b2 ← checkedSub s.1.size 1
  let (dst, r2) ← genRange r1 0 b2
  some (⟨s.1.data.set dst (s.1.data.getD src 0), s.1.size⟩, r2)

/-- `MutationEngine::copy_single_bytes` (lib.rs lines 391-397), the
CopyBytes strategy. -/
def copySingleBytes (s : St) : Option St := do
  let (m, r1) ← mutationSize s.1 s.2
  iterM copySingleStep m (s.1, r1)

/-- The copy loop of `MutationEngine::copy_byte_range` (lib.rs lines
403-405): `data[to + i] = data[from + i]` reading from the CURRENT buffer at
each step (no snapshot). -/
def copyLoop (d : List Nat) (src dst m : Nat) : List Nat :=
  (List.range m).foldl (fun acc i => acc.set (dst + i) (acc.getD (src + i) 0)) d

/-- `MutationEngine::copy_byte_range` (lib.rs lines 399-406), the CopyRange
strategy. -/
def copyByteRange (s : St) : Option St := do
  let (m, r1) ← mutationSize s.1 s.2
  let b ← checkedSub s.1.size m
  let (src, r2) ← genRange r1 0 b
  let b2 ← checkedSub s.1.size m
  let (dst, r3) ← genRange r2 0 b2
  some (⟨copyLoop s.1.data src dst m, s.1.size⟩, r3)

/-- One iteration of `MutationEngine::insert_constants` (lib.rs lines
410-449): `gen_range(0, 4 - 1)` picks a width class, a value is chosen from
that width's table and stored big-endian at a random offset below
`size - width`. -/
def insertConstantsStep (s : St) : Option St := do
  let (magic, r1) ← genRange s.2 0 (4 - 1)
  match magic with
  | 0 => do
      let (v, r2) := choose r1 MAGIC_8
      let b ← checkedSub s.1.size 1
      let (dst, r3) ← genRange r2 0 b
      some (⟨s.1.data.set dst v, s.1.size⟩, r3)
  | 1 => do
      let (v, r2) := choose r1 MAGIC_16
      let b ← checkedSub s.1.size 2
      let (dst, r3) ← genRange r2 0 b
      some (⟨beWrite s.1.data dst 2 v, s.1.size⟩, r3)
  | 2 => do
      let (v, r2) := choose r1 MAGIC_32
      let b ← checkedSub s.1.size 4
      let (dst, r3) ← genRange r2 0 b
      some (⟨beWrite s.1.data dst 4 v, s.1.size⟩, r3)
  | 3 => do
      let (v, r2) := choose r1 MAGIC_64
      let b ← checkedSub s.1.size 8
      let (dst, r3) ← genRange r2 0 b
      some (⟨beWrite s.1.data dst 8 v, s.1.size⟩, r3)
  | _ => none

/-- `MutationEngine::insert_constants` (lib.rs lines 408-450): exactly 10
iterations. -/
def insertConstants (s : St) : Option St :=
  iterM insertConstantsStep 10 s

/-- `MutationEngine::truncate` (lib.rs lines 452-456).  The Rust code casts
the FACTOR, not the product: `(trunc * 0.01) as usize` is `0` for every
drawn `trunc` in `[0, 50]`, embedded exactly as the integer `trunc / 100`.
The tracked `size` is not updated either. -/
def truncate (s : St) : Option St := do
  let (trunc, r1) ← genRange s.2 0 50
  let t := s.1.size - s.1.size * (trunc / 100)
  some (⟨s.1.data.take t, s.1.size⟩, r1)

/-- `MutationEngine::append` (lib.rs lines 458-465): copy a
`mutation_size`-byte window starting below `size - mutation_size` and append
it; this strategy DOES update the tracked size. -/
def append (s : St) : Option St := do
  let (m, r1) ← mutationSize s.1 s.2
  let b ← checkedSub s.1.size m
  let (src, r2) ← genRange r1 0 b
  let slice := (s.1.data.drop src).take m
  some (⟨s.1.data ++ slice, s.1.size + m⟩, r2)

/-- `MutationEngine::splice` (lib.rs lines 467-474).  The caller has already
unwrapped the corpus; the modulo pick panics (`none`) on an empty corpus.
The tracked `size` is NOT updated. -/
def splice (corpus : List (List Nat)) (s : St) : Option St := do
  let b ← checkedSub s.1.size 1
  let (splitIdx, r1) ← genRange s.2 0 b
  if corpus.length = 0 then none
  else do
    let (p, r2) := rand r1
    let spliceTc := corpus.getD (p % corpus.length) []
    let b2 ← checkedSub spliceTc.length 1
    let (spliceIdx, r3) ← genRange r2 0 b2
    some (⟨s.1.data.take splitIdx ++ spliceTc.drop spliceIdx, s.1.size⟩, r3)

/-- Elementwise store of `clone_from_slice`: token byte `i` goes to
position `idx + i`. -/
def writeSlice (d : List Nat) (idx : Nat) (tok : List Nat) : List Nat :=
  (List.range tok.length).foldl (fun acc i => acc.set (idx + i) (tok.getD i 0)) d

/-- One iteration of `MutationEngine::insert_from_dict` (lib.rs lines
479-487): pick a token by modulo (panic on an empty dictionary), draw an
offset below `size - token_length` (unsigned subtraction), and overwrite the
token bytes there. -/
def insertFromDictStep (dict : List (List Nat)) (s : St) : Option St := do
  if dict.length = 0 then none
  else do
    let (p, r1) := rand s.2
    let tok := dict.getD (p % dict.length) []
    let b ← checkedSub s.1.size tok.length
    let (idx, r2) ← genRange r1 0 b
    some (⟨writeSlice s.1.data idx tok, s.1.size⟩, r2)

/-- `MutationEngine::insert_from_dict` (lib.rs lines 476-488): exactly 10
iterations over the already-unwrapped dictionary. -/
def insertFromDict (dict : List (List Nat)) (s : St) : Option St :=
  iterM (insertFromDictStep dict) 10 s

/-- `MutationEngine` (lib.rs lines 131-138); the dictionary tokens are kept
as raw byte lists (`String::as_bytes`). -/
structure MutationEngine where
  mutator : Mutator
  tc : TestCase
  prng : Nat
  mutators : List Mutator
  tokenDict : Option (List (List Nat))
  corpus : Option (List (List Nat))
deriving Repr, DecidableEq

/-- The 14 always-registered strategies in source order (lib.rs lines
147-163); note positions 8/9 hold CopyRange before CopyBytes. -/
def baseMutators : List Mutator :=
  [.BitFlip, .ByteFlip, .NegateByte, .SwapNeighbors, .SwapEndianness,
   .Arithmetic, .DeleteBytes, .DeleteRange, .CopyRange, .CopyBytes,
   .InsertConstants, .Truncate, .Append, .Set]

/-- `MutationEngine::new` (lib.rs lines 141-191).  `InsertFromDict` is
appended iff a dictionary is supplied, then `Splice` iff a corpus is
supplied; a missing test case is generated by filling the default test case
to its 4096-byte size. -/
def MutationEngine.new (counter : Nat) (testCase : Option TestCase)
    (prngSeed : Option Nat) (tokenDict corpus : Option (List (List Nat))) :
    MutationEngine :=
  let mutators := baseMutators
    ++ (if tokenDict.isSome then [Mutator.InsertFromDict] else [])
    ++ (if corpus.isSome then [Mutator.Splice] else [])
  let prng0 := rngNew counter (prngSeed.getD 0)
  match testCase with
  | some tc => ⟨Mutator.BitFlip, tc, prng0, mutators, tokenDict, corpus⟩
  | none =>
      let r := fillBytes prng0 TestCase.default.data TestCase.default.size
      ⟨Mutator.BitFlip, ⟨r.1, TestCase.default.size⟩, r.2, mutators, tokenDict, corpus⟩

/-- `MutationEngine::get_mutator` (lib.rs lines 199-219): the FIXED
index-to-tag map used by `mutate`; `none` is the `unreachable!()` arm.  Note
that it disagrees with the registration order of `mutators` at indices 8, 9,
14 and 15. -/
def getMutator (num : Nat) : Option Mutator :=
  match num with
  | 0 => some .BitFlip
  | 1 => some .ByteFlip
  | 2 => some .NegateByte
  | 3 => some .SwapNeighbors
  | 4 => some .SwapEndianness
  | 5 => some .Arithmetic
  | 6 => some .DeleteBytes
  | 7 => some .DeleteRange
  | 8 => some .CopyBytes
  | 9 => some .CopyRange
  | 10 => some .InsertConstants
  | 11 => some .Truncate
  | 12 => some .Append
  | 13 => some .Set
  | 14 => some .Splice
  | 15 => some .InsertFromDict
  | _ => none

/-- `MutationEngine::select_random_test_case` (lib.rs lines 221-234):
with a corpus, copy a random entry in (asserting the corpus is non-empty);
without one, build a fresh 4096-byte random buffer. -/
def selectRandomTestCase (e : MutationEngine) : Option MutationEngine :=
  match e.corpus with
  | some corp =>
      if corp.length = 0 then none
      else
        let (r, rng1) := rand e.prng
        let chosen := corp.getD (r % corp.length) []
        some { e with tc := ⟨chosen, chosen.length⟩, prng := rng1 }
  | none =>
      let r := fillBytes e.prng [] 4096
      some { e with tc := TestCase.new r.1, prng := r.2 }

/-- The strategy-index draw of `MutationEngine::mutate` (lib.rs line 237):
`gen_range(0, mutators.len() - 1)`. -/
def selectIdx (e : MutationEngine) : Option (Nat × Nat) := do
  let b ← checkedSub e.mutators.length 1
  genRange e.prng 0 b

/-- The strategy index chosen by a production call. -/
def selectedIndex (e : MutationEngine) : Option Nat :=
  (selectIdx e).map Prod.fst

/-- The strategy tag a production call dispatches to (lib.rs lines
237-238). -/
def selectedMutator (e : MutationEngine) : Option Mutator :=
  (selectedIndex e).bind getMutator

/-- The dispatch `match` of `MutationEngine::mutate` (lib.rs lines 241-258)
applied to the engine's current strategy tag; `Splice` and `InsertFromDict`
first `unwrap()` their resource (`none` = panic when it is absent). -/
def applyMutator (e : MutationEngine) : Option MutationEngine := do
  let s ← (match e.mutator with
    | .BitFlip => bitFlip (e.tc, e.prng)
    | .ByteFlip => byteFlip (e.tc, e.prng)
    | .NegateByte => negateByte (e.tc, e.prng)
    | .SwapNeighbors => swapNeighbors (e.tc, e.prng)
    | .SwapEndianness => swapWithWidth (e.tc, e.prng)
    | .Arithmetic => arithmetic (e.tc, e.prng)
    | .DeleteBytes => deleteSingleBytes (e.tc, e.prng)
    | .DeleteRange => deleteByteRange (e.tc, e.prng)
    | .CopyBytes => copySingleBytes (e.tc, e.prng)
    | .CopyRange => copyByteRange (e.tc, e.prng)
    | .InsertConstants => insertConstants (e.tc, e.prng)
    | .Truncate => truncate (e.tc, e.prng)
    | .Append => append (e.tc, e.prng)
    | .Set => setMut (e.tc, e.prng)
    | .Splice =>
        match e.corpus with
        | none => none
        | some c => splice c (e.tc, e.prng)
    | .InsertFromDict =>
        match e.tokenDict with
        | none => none
        | some d2 => insertFromDict d2 (e.tc, e.prng))
  some { e with tc := s.1, prng := s.2 }

/-- `MutationEngine::mutate` (lib.rs lines 236-260): draw the strategy
index, look the tag up in the fixed map, resample the working buffer, apply
the strategy. -/
def mutate (e : MutationEngine) : Option MutationEngine := do
  let (m, r1) ← selectIdx e
  let mu ← getMutator m
  let e2 ← selectRandomTestCase { e with mutator := mu, prng := r1 }
  applyMutator e2

/-! ## Generic helper lemmas -/

theorem genRange_small (rng max : Nat) (h1 : 0 < max) (h2 : max < usizeMax) :
    genRange rng 0 max = some (rng % (max + 1), rngStep rng) := by
  unfold genRange
  rw [if_neg (by omega), if_neg (by omega), if_neg (by rintro ⟨-, h⟩; omega)]
  simp [rand]

theorem genRange_zero_isSome (rng max : Nat) : (genRange rng 0 max).isSome = true := by
  unfold genRange
  rw [if_neg (by omega)]
  split_ifs <;> simp

theorem genRange_zero_le (rng max v r' : Nat) (hm : max < usizeMax)
    (h : genRange rng 0 max = some (v, r')) : v ≤ max := by
  unfold genRange at h
  rw [if_neg (by omega)] at h
  split_ifs at h with hmin hfull
  · simp at h; omega
  · exact absurd hfull.2 (by omega)
  · simp [rand] at h
    have := Nat.mod_lt rng (y := max + 1) (by omega)
    omega

theorem mutationSize_eq (tc : TestCase) (rng : Nat) :
    mutationSize tc rng = some (tc.size * (rng % 11 + 1) / 100 + 1, rngStep rng) := by
  unfold mutationSize
  rw [genRange_small rng 10 (by omega) (by norm_num [usizeMax, usizeSize])]
  rfl

theorem mutationSize_le (tc : TestCase) (rng m r' : Nat) (h1 : 1 ≤ tc.size)
    (h : mutationSize tc rng = some (m, r')) : m ≤ tc.size := by
  rw [mutationSize_eq] at h
  simp at h
  have hr : rng % 11 + 1 ≤ 11 := by omega
  have hmul : tc.size * (rng % 11 + 1) ≤ tc.size * 11 := Nat.mul_le_mul_left _ hr
  have hdiv : tc.size * (rng % 11 + 1) / 100 ≤ tc.size * 11 / 100 :=
    Nat.div_le_div_right hmul
  have : tc.size * 11 / 100 + 1 ≤ tc.size := by omega
  omega

theorem foldl_length_inv {β : Type} (g : List Nat → β → List Nat)
    (hg : ∀ d x, (g d x).length = d.length) :
    ∀ (xs : List β) (d : List Nat), (xs.foldl g d).length = d.length
  | [], _ => rfl
  | x :: xs, d => by
      rw [List.foldl_cons, foldl_length_inv g hg xs, hg]

theorem setRange_length (d : List Nat) (idx len v : Nat) :
    (setRange d idx len v).length = d.length :=
  foldl_length_inv _ (by simp) _ _

theorem listSwap_length (d : List Nat) (i j : Nat) :
    (listSwap d i j).length = d.length := by
  simp [listSwap]

theorem reverseWindow_length (d : List Nat) (idx w : Nat) :
    (reverseWindow d idx w).length = d.length :=
  foldl_length_inv _ (fun d' _ => listSwap_length d' _ _) _ _

theorem beWrite_length (d : List Nat) (idx w p : Nat) :
    (beWrite d idx w p).length = d.length :=
  foldl_length_inv _ (by simp) _ _

theorem copyLoop_length (d : List Nat) (src dst m : Nat) :
    (copyLoop d src dst m).length = d.length :=
  foldl_length_inv _ (by simp) _ _

theorem writeSlice_length (d : List Nat) (idx : Nat) (tok : List Nat) :
    (writeSlice d idx tok).length = d.length :=
  foldl_length_inv _ (by simp) _ _

theorem iterM_inv {α : Type} (f : α → Option α) (P : α → Prop)
    (hf : ∀ a b, P a → f a = some b → P b) :
    ∀ (n : Nat) (a b : α), P a → iterM f n a = some b → P b
  | 0, a, b, hP, h => by
      simp [iterM] at h
      exact h ▸ hP
  | n + 1, a, b, hP, h => by
      simp only [iterM] at h
      rcases Option.bind_eq_some.mp h with ⟨c, hc, hrest⟩
      exact iterM_inv f P hf n c b (hf a c hP hc) hrest

theorem iterM_isSome {α : Type} (f : α → Option α) (P : α → Prop)
    (hf : ∀ a, P a → ∃ b, f a = some b ∧ P b) :
    ∀ (n : Nat) (a : α), P a → ∃ b, iterM f n a = some b ∧ P b
  | 0, a, hP => ⟨a, rfl, hP⟩
  | n + 1, a, hP => by
      obtain ⟨c, hc, hPc⟩ := hf a hP
      obtain ⟨b, hb, hPb⟩ := iterM_isSome f P hf n c hPc
      refine ⟨b, ?_, hPb⟩
      simp only [iterM, hc, Option.some_bind]
      exact hb

theorem choose_byteRange (r : Nat) :
    (choose r BYTE_RANGE).1 = 2 ∨ (choose r BYTE_RANGE).1 = 4 ∨ (choose r BYTE_RANGE).1 = 8 := by
  unfold choose BYTE_RANGE
  have h3 : r % 3 = 0 ∨ r % 3 = 1 ∨ r % 3 = 2 := by omega
  rcases h3 with h | h | h <;> simp [rand, h]

/-! ## Per-strategy frame lemmas: each size-preserving strategy step keeps
both the element count and the tracked size unchanged. -/

theorem arithWindow_length (w : Nat) (op : Bool) (d : List Nat) (idx : Nat) :
    (arithWindow w op d idx).length = d.length := by
  simp [arithWindow, beWrite_length]

theorem bitFlipStep_pres (s s' : St) (h : bitFlipStep s = some s') :
    s'.1.data.length = s.1.data.length ∧ s'.1.size = s.1.size := by
  simp only [bitFlipStep, bind, Option.bind_eq_some] at h
  obtain ⟨b, hb, h⟩ := h
  obtain ⟨⟨idx, r1⟩, hg, h⟩ := h
  rcases hch : choose r1 BYTE_POS with ⟨pos, r2⟩
  rw [hch] at h
  simp only [Option.some.injEq] at h
  subst h
  simp

theorem byteFlipStep_pres (s s' : St) (h : byteFlipStep s = some s') :
    s'.1.data.length = s.1.data.length ∧ s'.1.size = s.1.size := by
  simp only [byteFlipStep, bind, Option.bind_eq_some] at h
  obtain ⟨b, hb, h⟩ := h
  obtain ⟨⟨idx, r1⟩, hg, h⟩ := h
  rcases hch : genByte r1 with ⟨v, r2⟩
  rw [hch] at h
  simp only [Option.some.injEq] at h
  subst h
  simp

theorem negateByteStep_pres (s s' : St) (h : negateByteStep s = some s') :
    s'.1.data.length = s.1.data.length ∧ s'.1.size = s.1.size := by
  simp only [negateByteStep, bind, Option.bind_eq_some] at h
  obtain ⟨b, hb, h⟩ := h
  obtain ⟨⟨idx, r1⟩, hg, h⟩ := h
  simp only [Option.some.injEq] at h
  subst h
  simp

theorem swapNeighborsStep_pres (s s' : St) (h : swapNeighborsStep s = some s') :
    s'.1.data.length = s.1.data.length ∧ s'.1.size = s.1.size := by
  simp only [swapNeighborsStep, bind, Option.bind_eq_some] at h
  obtain ⟨b, hb, h⟩ := h
  obtain ⟨⟨idx, r1⟩, hg, h⟩ := h
  simp only [Option.some.injEq] at h
  subst h
  simp [listSwap_length]

theorem swapWithWidthStep_pres (s s' : St) (h : swapWithWidthStep s = some s') :
    s'.1.data.length = s.1.data.length ∧ s'.1.size = s.1.size := by
  rcases hch : choose s.2 BYTE_RANGE with ⟨w, r1⟩
  simp only [swapWithWidthStep, hch, bind, Option.bind_eq_some] at h
  obtain ⟨b, hb, h⟩ := h
  obtain ⟨⟨idx, r2⟩, hg, h⟩ := h
  simp only [Option.some.injEq] at h
  subst h
  simp [reverseWindow_length]

theorem arithmeticStep_pres (s s' : St) (h : arithmeticStep s = some s') :
    s'.1.data.length = s.1.data.length ∧ s'.1.size = s.1.size := by
  rcases hch : choose s.2 BYTE_RANGE with ⟨w, r1⟩
  have hw : w = 2 ∨ w = 4 ∨ w = 8 := by
    have := choose_byteRange s.2
    rw [hch] at this
    exact this
  simp only [arithmeticStep, hch, bind, Option.bind_eq_some] at h
  obtain ⟨b, hb, h⟩ := h
  obtain ⟨⟨idx, r2⟩, hg, h⟩ := h
  rcases hcb : rngBool r2 with ⟨op, r3⟩
  rw [hcb] at h
  rcases hw with hw | hw | hw <;> subst hw <;>
    simp only [Option.some.injEq] at h <;> subst h <;>
    simp [arithWindow_length]

theorem copySingleStep_pres (s s' : St) (h : copySingleStep s = some s') :
    s'.1.data.length = s.1.data.length ∧ s'.1.size = s.1.size := by
  simp only [copySingleStep, bind, Option.bind_eq_some] at h
  obtain ⟨b, hb, h⟩ := h
  obtain ⟨⟨src, r1⟩, hg, h⟩ := h
  obtain ⟨b2, hb2, h⟩ := h
  obtain ⟨⟨dst, r2⟩, hg2, h⟩ := h
  simp only [Option.some.injEq] at h
  subst h
  simp

theorem insertConstantsStep_pres (s s' : St) (h : insertConstantsStep s = some s') :
    s'.1.data.length = s.1.data.length ∧ s'.1.size = s.1.size := by
  simp only [insertConstantsStep, bind, Option.bind_eq_some] at h
  obtain ⟨⟨magic, r1⟩, hg, h⟩ := h
  have hm : magic ≤ 3 := genRange_zero_le s.2 3 magic r1 (by norm_num [usizeMax, usizeSize]) hg
  have hm4 : magic = 0 ∨ magic = 1 ∨ magic = 2 ∨ magic = 3 := by omega
  rcases hm4 with hm4 | hm4 | hm4 | hm4 <;> subst hm4
  · rcases hch : choose r1 MAGIC_8 with ⟨v, r2⟩
    simp only [hch, bind, Option.bind_eq_some] at h
    obtain ⟨b, hb, h⟩ := h
    obtain ⟨⟨dst, r3⟩, hg3, h⟩ := h
    simp only [Option.some.injEq] at h
    subst h
    simp
  · rcases hch : choose r1 MAGIC_16 with ⟨v, r2⟩
    simp only [hch, bind, Option.bind_eq_some] at h
    obtain ⟨b, hb, h⟩ := h
    obtain ⟨⟨dst, r3⟩, hg3, h⟩ := h
    simp only [Option.some.injEq] at h
    subst h
    simp [beWrite_length]
  · rcases hch : choose r1 MAGIC_32 with ⟨v, r2⟩
    simp only [hch, bind, Option.bind_eq_some] at h
    obtain ⟨b, hb, h⟩ := h
    obtain ⟨⟨dst, r3⟩, hg3, h⟩ := h
    simp only [Option.some.injEq] at h
    subst h
    simp [beWrite_length]
  · rcases hch : choose r1 MAGIC_64 with ⟨v, r2⟩
    simp only [hch, bind, Option.bind_eq_some] at h
    obtain ⟨b, hb, h⟩ := h
    obtain ⟨⟨dst, r3⟩, hg3, h⟩ := h
    simp only [Option.some.injEq] at h
    subst h
    simp [beWrite_length]

theorem insertFromDictStep_pres (dict : List (List Nat)) (s s' : St)
    (h : insertFromDictStep dict s = some s') :
    s'.1.data.length = s.1.data.length ∧ s'.1.size = s.1.size := by
  simp only [insertFromDictStep] at h
  split_ifs at h with hd
  simp only [bind, Option.bind_eq_some] at h
  obtain ⟨b, hb, h⟩ := h
  obtain ⟨⟨idx, r2⟩, hg, h⟩ := h
  simp only [Option.some.injEq] at h
  subst h
  simp [writeSlice_length]

theorem setMut_pres (s s' : St) (h : setMut s = some s') :
    s'.1.data.length = s.1.data.length ∧ s'.1.size = s.1.size := by
  rcases hcb : genByte s.2 with ⟨v, r1⟩
  simp only [setMut, hcb, bind, Option.bind_eq_some] at h
  obtain ⟨b, hb, h⟩ := h
  obtain ⟨⟨idx, r2⟩, hg, h⟩ := h
  obtain ⟨b1, hb1, h⟩ := h
  obtain ⟨b2, hb2, h⟩ := h
  obtain ⟨⟨len, r3⟩, hg2, h⟩ := h
  simp only [Option.some.injEq] at h
  subst h
  simp [setRange_length]

theorem copyByteRange_pres (s s' : St) (h : copyByteRange s = some s') :
    s'.1.data.length = s.1.data.length ∧ s'.1.size = s.1.size := by
  simp only [copyByteRange, bind, Option.bind_eq_some] at h
  obtain ⟨⟨m, r1⟩, hm, h⟩ := h
  obtain ⟨b, hb, h⟩ := h
  obtain ⟨⟨src, r2⟩, hg, h⟩ := h
  obtain ⟨b2, hb2, h⟩ := h
  obtain ⟨⟨dst, r3⟩, hg2, h⟩ := h
  simp only [Option.some.injEq] at h
  subst h
  simp [copyLoop_length]

/-! ## Whole-strategy frame lemmas -/

theorem iterM_frame (f : St → Option St)
    (hf : ∀ a b, f a = some b → b.1.data.length = a.1.data.length ∧ b.1.size = a.1.size)
    (n : Nat) (a out : St) (h : iterM f n a = some out) :
    out.1.data.length = a.1.data.length ∧ out.1.size = a.1.size :=
  iterM_inv f (fun s => s.1.data.length = a.1.data.length ∧ s.1.size = a.1.size)
    (fun c b hP hcb => by
      obtain ⟨h1, h2⟩ := hf c b hcb
      exact ⟨h1.trans hP.1, h2.trans hP.2⟩)
    n a out ⟨rfl, rfl⟩ h

theorem bitFlip_frame (tc : TestCase) (rng : Nat) (out : St)
    (h : bitFlip (tc, rng) = some out) :
    out.1.data.length = tc.data.length ∧ out.1.size = tc.size := by
  simp only [bitFlip, bind, Option.bind_eq_some] at h
  obtain ⟨⟨m, r1⟩, _, h⟩ := h
  exact iterM_frame bitFlipStep bitFlipStep_pres m (tc, r1) out h

theorem byteFlip_frame (tc : TestCase) (rng : Nat) (out : St)
    (h : byteFlip (tc, rng) = some out) :
    out.1.data.length = tc.data.length ∧ out.1.size = tc.size := by
  simp only [byteFlip, bind, Option.bind_eq_some] at h
  obtain ⟨⟨m, r1⟩, _, h⟩ := h
  exact iterM_frame byteFlipStep byteFlipStep_pres m (tc, r1) out h

theorem negateByte_frame (tc : TestCase) (rng : Nat) (out : St)
    (h : negateByte (tc, rng) = some out) :
    out.1.data.length = tc.data.length ∧ out.1.size = tc.size := by
  simp only [negateByte, bind, Option.bind_eq_some] at h
  obtain ⟨⟨m, r1⟩, _, h⟩ := h
  exact iterM_frame negateByteStep negateByteStep_pres m (tc, r1) out h

theorem swapNeighbors_frame (tc : TestCase) (rng : Nat) (out : St)
    (h : swapNeighbors (tc, rng) = some out) :
    out.1.data.length = tc.data.length ∧ out.1.size = tc.size := by
  simp only [swapNeighbors, bind, Option.bind_eq_some] at h
  obtain ⟨⟨m, r1⟩, _, h⟩ := h
  exact iterM_frame swapNeighborsStep swapNeighborsStep_pres m (tc, r1) out h

theorem swapWithWidth_frame (tc : TestCase) (rng : Nat) (out : St)
    (h : swapWithWidth (tc, rng) = some out) :
    out.1.data.length = tc.data.length ∧ out.1.size = tc.size := by
  simp only [swapWithWidth, bind, Option.bind_eq_some] at h
  obtain ⟨⟨m, r1⟩, _, h⟩ := h
  exact iterM_frame swapWithWidthStep swapWithWidthStep_pres m (tc, r1) out h

theorem arithmetic_frame (tc : TestCase) (rng : Nat) (out : St)
    (h : arithmetic (tc, rng) = some out) :
    out.1.data.length = tc.data.length ∧ out.1.size = tc.size := by
  simp only [arithmetic, bind, Option.bind_eq_some] at h
  obtain ⟨⟨m, r1⟩, _, h⟩ := h
  exact iterM_frame arithmeticStep arithmeticStep_pres m (tc, r1) out h

theorem copySingleBytes_frame (tc : TestCase) (rng : Nat) (out : St)
    (h : copySingleBytes (tc, rng) = some out) :
    out.1.data.length = tc.data.length ∧ out.1.size = tc.size := by
  simp only [copySingleBytes, bind, Option.bind_eq_some] at h
  obtain ⟨⟨m, r1⟩, _, h⟩ := h
  exact iterM_frame copySingleStep copySingleStep_pres m (tc, r1) out h

theorem insertConstants_frame (tc : TestCase) (rng : Nat) (out : St)
    (h : insertConstants (tc, rng) = some out) :
    out.1.data.length = tc.data.length ∧ out.1.size = tc.size :=
  iterM_frame insertConstantsStep insertConstantsStep_pres 10 (tc, rng) out h

theorem insertFromDict_frame (dict : List (List Nat)) (tc : TestCase) (rng : Nat) (out : St)
    (h : insertFromDict dict (tc, rng) = some out) :
    out.1.data.length = tc.data.length ∧ out.1.size = tc.size :=
  iterM_frame (insertFromDictStep dict) (insertFromDictStep_pres dict) 10 (tc, rng) out h

/-! ## Per-strategy success lemmas: with the catalogue's minimum length in
hand, no range-bound subtraction underflows, so the strategy runs to
completion. -/

theorem bitFlipStep_isSome (s : St) (h1 : 1 ≤ s.1.size) :
    ∃ s', bitFlipStep s = some s' ∧ s'.1.size = s.1.size := by
  obtain ⟨⟨idx, r1⟩, hg⟩ :=
    Option.isSome_iff_exists.mp (genRange_zero_isSome s.2 (s.1.size - 1))
  refine ⟨(⟨s.1.data.set idx (Nat.xor (s.1.data.getD idx 0) (choose r1 BYTE_POS).1),
    s.1.size⟩, (choose r1 BYTE_POS).2), ?_, rfl⟩
  simp only [bitFlipStep, checkedSub, if_pos h1, bind, Option.some_bind, hg]

theorem swapNeighborsStep_isSome (s : St) (h1 : 2 ≤ s.1.size) :
    ∃ s', swapNeighborsStep s = some s' ∧ s'.1.size = s.1.size := by
  obtain ⟨⟨idx, r1⟩, hg⟩ :=
    Option.isSome_iff_exists.mp (genRange_zero_isSome s.2 (s.1.size - 2))
  refine ⟨(⟨listSwap s.1.data idx (idx + 1), s.1.size⟩, r1), ?_, rfl⟩
  simp only [swapNeighborsStep, checkedSub, if_pos h1, bind, Option.some_bind, hg]

theorem swapWithWidthStep_isSome (s : St) (h1 : 8 ≤ s.1.size) :
    ∃ s', swapWithWidthStep s = some s' ∧ s'.1.size = s.1.size := by
  rcases hch : choose s.2 BYTE_RANGE with ⟨w, r1⟩
  have hw : w ≤ 8 := by
    have := choose_byteRange s.2
    rw [hch] at this
    rcases this with h | h | h <;> omega
  obtain ⟨⟨idx, r2⟩, hg⟩ :=
    Option.isSome_iff_exists.mp (genRange_zero_isSome r1 (s.1.size - w))
  refine ⟨(⟨reverseWindow s.1.data idx w, s.1.size⟩, r2), ?_, rfl⟩
  simp only [swapWithWidthStep, hch, checkedSub, if_pos (by omega : w ≤ s.1.size), bind,
    Option.some_bind, hg]

theorem copyByteRange_isSome (tc : TestCase) (rng : Nat) (h1 : 1 ≤ tc.size) :
    (copyByteRange (tc, rng)).isSome = true := by
  have hm := mutationSize_eq tc rng
  have hle : tc.size * (rng % 11 + 1) / 100 + 1 ≤ tc.size :=
    mutationSize_le tc rng _ _ h1 hm
  obtain ⟨⟨src, r2⟩, hg⟩ := Option.isSome_iff_exists.mp
    (genRange_zero_isSome (rngStep rng) (tc.size - (tc.size * (rng % 11 + 1) / 100 + 1)))
  obtain ⟨⟨dst, r3⟩, hg2⟩ := Option.isSome_iff_exists.mp
    (genRange_zero_isSome r2 (tc.size - (tc.size * (rng % 11 + 1) / 100 + 1)))
  simp only [copyByteRange, hm, checkedSub, if_pos hle, bind, Option.some_bind, hg, hg2]
  rfl

theorem insertFromDictStep_isSome (dict : List (List Nat)) (s : St)
    (hd : dict ≠ []) (hfit : ∀ t ∈ dict, t.length ≤ s.1.size) :
    ∃ s', insertFromDictStep dict s = some s' ∧ s'.1.size = s.1.size := by
  have hdl : dict.length ≠ 0 := by simpa using hd
  have hmem : dict.getD ((rand s.2).1 % dict.length) [] ∈ dict := by
    rw [List.getD_eq_getElem dict [] (Nat.mod_lt _ (by omega))]
    exact List.getElem_mem _
  have hfit2 : (dict.getD ((rand s.2).1 % dict.length) []).length ≤ s.1.size :=
    hfit _ hmem
  obtain ⟨⟨idx, r2⟩, hg⟩ := Option.isSome_iff_exists.mp
    (genRange_zero_isSome (rand s.2).2
      (s.1.size - (dict.getD ((rand s.2).1 % dict.length) []).length))
  refine ⟨(⟨writeSlice s.1.data idx (dict.getD ((rand s.2).1 % dict.length) []),
    s.1.size⟩, r2), ?_, rfl⟩
  simp only [insertFromDictStep, if_neg hdl, checkedSub, if_pos hfit2, bind,
    Option.some_bind, hg]

theorem bitFlip_isSome (tc : TestCase) (rng : Nat) (h1 : 1 ≤ tc.size) :
    (bitFlip (tc, rng)).isSome = true := by
  obtain ⟨b, hb, _⟩ := iterM_isSome bitFlipStep (fun s => s.1.size = tc.size)
    (fun a hP => by
      obtain ⟨s', hs', hsz⟩ := bitFlipStep_isSome a (by rw [hP]; exact h1)
      exact ⟨s', hs', hsz.trans hP⟩)
    (tc.size * (rng % 11 + 1) / 100 + 1) (tc, rngStep rng) rfl
  simp only [bitFlip, mutationSize_eq, bind, Option.some_bind, hb]
  rfl

theorem swapNeighbors_isSome (tc : TestCase) (rng : Nat) (h1 : 2 ≤ tc.size) :
    (swapNeighbors (tc, rng)).isSome = true := by
  obtain ⟨b, hb, _⟩ := iterM_isSome swapNeighborsStep (fun s => s.1.size = tc.size)
    (fun a hP => by
      obtain ⟨s', hs', hsz⟩ := swapNeighborsStep_isSome a (by rw [hP]; exact h1)
      exact ⟨s', hs', hsz.trans hP⟩)
    (tc.size * (rng % 11 + 1) / 100 + 1) (tc, rngStep rng) rfl
  simp only [swapNeighbors, mutationSize_eq, bind, Option.some_bind, hb]
  rfl

theorem swapWithWidth_isSome (tc : TestCase) (rng : Nat) (h1 : 8 ≤ tc.size) :
    (swapWithWidth (tc, rng)).isSome = true := by
  obtain ⟨b, hb, _⟩ := iterM_isSome swapWithWidthStep (fun s => s.1.size = tc.size)
    (fun a hP => by
      obtain ⟨s', hs', hsz⟩ := swapWithWidthStep_isSome a (by rw [hP]; exact h1)
      exact ⟨s', hs', hsz.trans hP⟩)
    (tc.size * (rng % 11 + 1) / 100 + 1) (tc, rngStep rng) rfl
  simp only [swapWithWidth, mutationSize_eq, bind, Option.some_bind, hb]
  rfl

theorem insertFromDict_isSome (dict : List (List Nat)) (tc : TestCase) (rng : Nat)
    (hd : dict ≠ []) (hfit : ∀ t ∈ dict, t.length ≤ tc.size) :
    (insertFromDict dict (tc, rng)).isSome = true := by
  obtain ⟨b, hb, _⟩ := iterM_isSome (insertFromDictStep dict) (fun s => s.1.size = tc.size)
    (fun a hP => by
      obtain ⟨s', hs', hsz⟩ := insertFromDictStep_isSome dict a hd
        (fun t ht => by rw [hP]; exact hfit t ht)
      exact ⟨s', hs', hsz.trans hP⟩)
    10 (tc, rng) rfl
  rw [insertFromDict, hb]
  rfl

/-- Success of a counted loop whose body consumes a resource tracked by the
index: if from every state good for `n + 1` steps the body reaches a state
good for `n`, the whole loop completes. -/
theorem iterM_isSome_count {α : Type} (f : α → Option α) (Q : Nat → α → Prop)
    (hf : ∀ n a, Q (n + 1) a → ∃ b, f a = some b ∧ Q n b) :
    ∀ (n : Nat) (a : α), Q n a → ∃ b, iterM f n a = some b ∧ Q 0 b
  | 0, a, hQ => ⟨a, rfl, hQ⟩
  | n + 1, a, hQ => by
      obtain ⟨c, hc, hQc⟩ := hf n a hQ
      obtain ⟨b, hb, hQb⟩ := iterM_isSome_count f Q hf n c hQc
      refine ⟨b, ?_, hQb⟩
      simp only [iterM, hc, Option.some_bind]
      exact hb

theorem byteFlipStep_isSome (s : St) (h1 : 1 ≤ s.1.size) :
    ∃ s', byteFlipStep s = some s' ∧ s'.1.size = s.1.size := by
  obtain ⟨⟨idx, r1⟩, hg⟩ :=
    Option.isSome_iff_exists.mp (genRange_zero_isSome s.2 (s.1.size - 1))
  refine ⟨(⟨s.1.data.set idx (Nat.xor (s.1.data.getD idx 0) (genByte r1).1),
    s.1.size⟩, (genByte r1).2), ?_, rfl⟩
  simp only [byteFlipStep, checkedSub, if_pos h1, bind, Option.some_bind, hg]

theorem negateByteStep_isSome (s : St) (h1 : 1 ≤ s.1.size) :
    ∃ s', negateByteStep s = some s' ∧ s'.1.size = s.1.size := by
  obtain ⟨⟨idx, r1⟩, hg⟩ :=
    Option.isSome_iff_exists.mp (genRange_zero_isSome s.2 (s.1.size - 1))
  refine ⟨(⟨s.1.data.set idx (Nat.xor (s.1.data.getD idx 0) 0xff), s.1.size⟩, r1), ?_, rfl⟩
  simp only [negateByteStep, checkedSub, if_pos h1, bind, Option.some_bind, hg]

theorem copySingleStep_isSome (s : St) (h1 : 1 ≤ s.1.size) :
    ∃ s', copySingleStep s = some s' ∧ s'.1.size = s.1.size := by
  obtain ⟨⟨src, r1⟩, hg⟩ :=
    Option.isSome_iff_exists.mp (genRange_zero_isSome s.2 (s.1.size - 1))
  obtain ⟨⟨dst, r2⟩, hg2⟩ :=
    Option.isSome_iff_exists.mp (genRange_zero_isSome r1 (s.1.size - 1))
  refine ⟨(⟨s.1.data.set dst (s.1.data.getD src 0), s.1.size⟩, r2), ?_, rfl⟩
  simp only [copySingleStep, checkedSub, if_pos h1, bind, Option.some_bind, hg, hg2]

theorem arithmeticStep_isSome (s : St) (h1 : 8 ≤ s.1.size) :
    ∃ s', arithmeticStep s = some s' ∧ s'.1.size = s.1.size := by
  rcases hch : choose s.2 BYTE_RANGE with ⟨w, r1⟩
  have hw : w = 2 ∨ w = 4 ∨ w = 8 := by
    have := choose_byteRange s.2
    rw [hch] at this
    exact this
  have hwle : w ≤ s.1.size := by rcases hw with h | h | h <;> omega
  obtain ⟨⟨idx, r2⟩, hg⟩ :=
    Option.isSome_iff_exists.mp (genRange_zero_isSome r1 (s.1.size - w))
  rcases hcb : rngBool r2 with ⟨op, r3⟩
  rcases hw with hw | hw | hw <;> subst hw
  · refine ⟨(⟨arithWindow 2 op s.1.data idx, s.1.size⟩, r3), ?_, rfl⟩
    simp only [arithmeticStep, hch, checkedSub, if_pos hwle, bind,
      Option.some_bind, hg, hcb]
  · refine ⟨(⟨arithWindow 4 op s.1.data idx, s.1.size⟩, r3), ?_, rfl⟩
    simp only [arithmeticStep, hch, checkedSub, if_pos hwle, bind,
      Option.some_bind, hg, hcb]
  · refine ⟨(⟨arithWindow 8 op s.1.data idx, s.1.size⟩, r3), ?_, rfl⟩
    simp only [arithmeticStep, hch, checkedSub, if_pos hwle, bind,
      Option.some_bind, hg, hcb]

theorem deleteSingleStep_isSome (s : St) (h1 : 1 ≤ s.1.size) :
    ∃ s', deleteSingleStep s = some s' ∧ s'.1.size = s.1.size - 1 := by
  obtain ⟨⟨idx, r1⟩, hg⟩ :=
    Option.isSome_iff_exists.mp (genRange_zero_isSome s.2 (s.1.size - 1))
  refine ⟨(⟨s.1.data.eraseIdx idx, s.1.size - 1⟩, r1), ?_, rfl⟩
  simp only [deleteSingleStep, checkedSub, if_pos h1, bind, Option.some_bind, hg]

theorem insertConstantsStep_isSome (s : St) (h1 : 8 ≤ s.1.size) :
    ∃ s', insertConstantsStep s = some s' ∧ s'.1.size = s.1.size := by
  obtain ⟨⟨magic, r1⟩, hg⟩ :=
    Option.isSome_iff_exists.mp (genRange_zero_isSome s.2 (4 - 1))
  have hm : magic ≤ 3 :=
    genRange_zero_le s.2 3 magic r1 (by norm_num [usizeMax, usizeSize]) hg
  have hm4 : magic = 0 ∨ magic = 1 ∨ magic = 2 ∨ magic = 3 := by omega
  rcases hm4 with hm4 | hm4 | hm4 | hm4 <;> subst hm4
  · rcases hch : choose r1 MAGIC_8 with ⟨v, r2⟩
    obtain ⟨⟨dst, r3⟩, hg3⟩ :=
      Option.isSome_iff_exists.mp (genRange_zero_isSome r2 (s.1.size - 1))
    refine ⟨(⟨s.1.data.set dst v, s.1.size⟩, r3), ?_, rfl⟩
    simp only [insertConstantsStep, bind, hg, Option.some_bind, hch, checkedSub,
      if_pos (show (1 : Nat) ≤ s.1.size by omega), hg3]
  · rcases hch : choose r1 MAGIC_16 with ⟨v, r2⟩
    obtain ⟨⟨dst, r3⟩, hg3⟩ :=
      Option.isSome_iff_exists.mp (genRange_zero_isSome r2 (s.1.size - 2))
    refine ⟨(⟨beWrite s.1.data dst 2 v, s.1.size⟩, r3), ?_, rfl⟩
    simp only [insertConstantsStep, bind, hg, Option.some_bind, hch, checkedSub,
      if_pos (show (2 : Nat) ≤ s.1.size by omega), hg3]
  · rcases hch : choose r1 MAGIC_32 with ⟨v, r2⟩
    obtain ⟨⟨dst, r3⟩, hg3⟩ :=
      Option.isSome_iff_exists.mp (genRange_zero_isSome r2 (s.1.size - 4))
    refine ⟨(⟨beWrite s.1.data dst 4 v, s.1.size⟩, r3), ?_, rfl⟩
    simp only [insertConstantsStep, bind, hg, Option.some_bind, hch, checkedSub,
      if_pos (show (4 : Nat) ≤ s.1.size by omega), hg3]
  · rcases hch : choose r1 MAGIC_64 with ⟨v, r2⟩
    obtain ⟨⟨dst, r3⟩, hg3⟩ :=
      Option.isSome_iff_exists.mp (genRange_zero_isSome r2 (s.1.size - 8))
    refine ⟨(⟨beWrite s.1.data dst 8 v, s.1.size⟩, r3), ?_, rfl⟩
    simp only [insertConstantsStep, bind, hg, Option.some_bind, hch, checkedSub,
      if_pos (show (8 : Nat) ≤ s.1.size by omega), hg3]

theorem byteFlip_isSome (tc : TestCase) (rng : Nat) (h1 : 1 ≤ tc.size) :
    (byteFlip (tc, rng)).isSome = true := by
  obtain ⟨b, hb, _⟩ := iterM_isSome byteFlipStep (fun s => s.1.size = tc.size)
    (fun a hP => by
      obtain ⟨s', hs', hsz⟩ := byteFlipStep_isSome a (by rw [hP]; exact h1)
      exact ⟨s', hs', hsz.trans hP⟩)
    (tc.size * (rng % 11 + 1) / 100 + 1) (tc, rngStep rng) rfl
  simp only [byteFlip, mutationSize_eq, bind, Option.some_bind, hb]
  rfl

theorem negateByte_isSome (tc : TestCase) (rng : Nat) (h1 : 1 ≤ tc.size) :
    (negateByte (tc, rng)).isSome = true := by
  obtain ⟨b, hb, _⟩ := iterM_isSome negateByteStep (fun s => s.1.size = tc.size)
    (fun a hP => by
      obtain ⟨s', hs', hsz⟩ := negateByteStep_isSome a (by rw [hP]; exact h1)
      exact ⟨s', hs', hsz.trans hP⟩)
    (tc.size * (rng % 11 + 1) / 100 + 1) (tc, rngStep rng) rfl
  simp only [negateByte, mutationSize_eq, bind, Option.some_bind, hb]
  rfl

theorem copySingleBytes_isSome (tc : TestCase) (rng : Nat) (h1 : 1 ≤ tc.size) :
    (copySingleBytes (tc, rng)).isSome = true := by
  obtain ⟨b, hb, _⟩ := iterM_isSome copySingleStep (fun s => s.1.size = tc.size)
    (fun a hP => by
      obtain ⟨s', hs', hsz⟩ := copySingleStep_isSome a (by rw [hP]; exact h1)
      exact ⟨s', hs', hsz.trans hP⟩)
    (tc.size * (rng % 11 + 1) / 100 + 1) (tc, rngStep rng) rfl
  simp only [copySingleBytes, mutationSize_eq, bind, Option.some_bind, hb]
  rfl

theorem arithmetic_isSome (tc : TestCase) (rng : Nat) (h1 : 8 ≤ tc.size) :
    (arithmetic (tc, rng)).isSome = true := by
  obtain ⟨b, hb, _⟩ := iterM_isSome arithmeticStep (fun s => s.1.size = tc.size)
    (fun a hP => by
      obtain ⟨s', hs', hsz⟩ := arithmeticStep_isSome a (by rw [hP]; exact h1)
      exact ⟨s', hs', hsz.trans hP⟩)
    (tc.size * (rng % 11 + 1) / 100 + 1) (tc, rngStep rng) rfl
  simp only [arithmetic, mutationSize_eq, bind, Option.some_bind, hb]
  rfl

theorem insertConstants_isSome (tc : TestCase) (rng : Nat) (h1 : 8 ≤ tc.size) :
    (insertConstants (tc, rng)).isSome = true := by
  obtain ⟨b, hb, _⟩ := iterM_isSome insertConstantsStep (fun s => s.1.size = tc.size)
    (fun a hP => by
      obtain ⟨s', hs', hsz⟩ := insertConstantsStep_isSome a (by rw [hP]; exact h1)
      exact ⟨s', hs', hsz.trans hP⟩)
    10 (tc, rng) rfl
  rw [insertConstants, hb]
  rfl

theorem deleteSingleBytes_isSome (tc : TestCase) (rng : Nat) (h1 : 1 ≤ tc.size) :
    (deleteSingleBytes (tc, rng)).isSome = true := by
  have hle : tc.size * (rng % 11 + 1) / 100 + 1 ≤ tc.size :=
    mutationSize_le tc rng _ _ h1 (mutationSize_eq tc rng)
  obtain ⟨b, hb, _⟩ := iterM_isSome_count deleteSingleStep (fun n s => n ≤ s.1.size)
    (fun n a hQ => by
      obtain ⟨s', hs', hsz⟩ := deleteSingleStep_isSome a (by omega)
      exact ⟨s', hs', by omega⟩)
    (tc.size * (rng % 11 + 1) / 100 + 1) (tc, rngStep rng) hle
  simp only [deleteSingleBytes, mutationSize_eq, bind, Option.some_bind, hb]
  rfl

theorem deleteByteRange_isSome (tc : TestCase) (rng : Nat) (h1 : 1 ≤ tc.size) :
    (deleteByteRange (tc, rng)).isSome = true := by
  have hle : tc.size * (rng % 11 + 1) / 100 + 1 ≤ tc.size :=
    mutationSize_le tc rng _ _ h1 (mutationSize_eq tc rng)
  obtain ⟨⟨idx, r2⟩, hg⟩ := Option.isSome_iff_exists.mp
    (genRange_zero_isSome (rngStep rng) (tc.size - (tc.size * (rng % 11 + 1) / 100 + 1)))
  simp only [deleteByteRange, mutationSize_eq, bind, Option.some_bind, checkedSub,
    if_pos hle, hg]
  rfl

theorem append_isSome (tc : TestCase) (rng : Nat) (h1 : 1 ≤ tc.size) :
    (append (tc, rng)).isSome = true := by
  have hle : tc.size * (rng % 11 + 1) / 100 + 1 ≤ tc.size :=
    mutationSize_le tc rng _ _ h1 (mutationSize_eq tc rng)
  obtain ⟨⟨src, r2⟩, hg⟩ := Option.isSome_iff_exists.mp
    (genRange_zero_isSome (rngStep rng) (tc.size - (tc.size * (rng % 11 + 1) / 100 + 1)))
  simp only [append, mutationSize_eq, bind, Option.some_bind, checkedSub,
    if_pos hle, hg]
  rfl

theorem truncate_isSome (tc : TestCase) (rng : Nat) :
    (truncate (tc, rng)).isSome = true := by
  obtain ⟨⟨t, r1⟩, hg⟩ := Option.isSome_iff_exists.mp (genRange_zero_isSome rng 50)
  simp only [truncate, bind, hg, Option.some_bind]
  rfl

theorem setMut_isSome (tc : TestCase) (rng : Nat) (h1 : 1 ≤ tc.size)
    (h2 : tc.size < usizeSize) :
    (setMut (tc, rng)).isSome = true := by
  rcases hcb : genByte rng with ⟨v, r1⟩
  obtain ⟨⟨idx, r2⟩, hg⟩ :=
    Option.isSome_iff_exists.mp (genRange_zero_isSome r1 (tc.size - 1))
  have hmax : tc.size - 1 < usizeMax := by
    unfold usizeMax
    unfold usizeSize at h2 ⊢
    omega
  have hidx : idx ≤ tc.size - 1 := genRange_zero_le r1 (tc.size - 1) idx r2 hmax hg
  have hs0 : checkedSub tc.size 1 = some (tc.size - 1) := by
    unfold checkedSub
    rw [if_pos h1]
  have hs1 : checkedSub tc.size idx = some (tc.size - idx) := by
    unfold checkedSub
    rw [if_pos (by omega)]
  have hs2 : checkedSub (tc.size - idx) 1 = some (tc.size - idx - 1) := by
    unfold checkedSub
    rw [if_pos (by omega)]
  obtain ⟨⟨len, r3⟩, hg2⟩ :=
    Option.isSome_iff_exists.mp (genRange_zero_isSome r2 (tc.size - idx - 1))
  simp only [setMut, hcb, bind, hs0, Option.some_bind, hg, hs1, hs2, hg2]
  rfl

theorem splice_isSome (corp : List (List Nat)) (tc : TestCase) (rng : Nat)
    (h1 : 1 ≤ tc.size) (hc : corp ≠ []) (hne : ∀ t ∈ corp, 1 ≤ t.length) :
    (splice corp (tc, rng)).isSome = true := by
  have hcl : corp.length ≠ 0 := by simpa using hc
  obtain ⟨⟨splitIdx, r1⟩, hg⟩ :=
    Option.isSome_iff_exists.mp (genRange_zero_isSome rng (tc.size - 1))
  have hmem : corp.getD ((rand r1).1 % corp.length) [] ∈ corp := by
    rw [List.getD_eq_getElem corp [] (Nat.mod_lt _ (by omega))]
    exact List.getElem_mem _
  have hlen : 1 ≤ (corp.getD ((rand r1).1 % corp.length) []).length := hne _ hmem
  have hs0 : checkedSub tc.size 1 = some (tc.size - 1) := by
    unfold checkedSub
    rw [if_pos h1]
  have hs2 : checkedSub (corp.getD ((rand r1).1 % corp.length) []).length 1 =
      some ((corp.getD ((rand r1).1 % corp.length) []).length - 1) := by
    unfold checkedSub
    rw [if_pos hlen]
  obtain ⟨⟨spliceIdx, r3⟩, hg2⟩ := Option.isSome_iff_exists.mp
    (genRange_zero_isSome (rand r1).2
      ((corp.getD ((rand r1).1 % corp.length) []).length - 1))
  simp only [splice, bind, hs0, Option.some_bind, hg, if_neg hcl, hs2, hg2]
  rfl

/-! ## Bitwise algebra of the xorshift state update -/

theorem xor_mod_two_pow (a b n : Nat) :
    (a ^^^ b) % 2 ^ n = a % 2 ^ n ^^^ b % 2 ^ n := by
  apply Nat.eq_of_testBit_eq
  intro i
  simp only [Nat.testBit_mod_two_pow, Nat.testBit_xor]
  cases h : decide (i < n) <;> simp

theorem xor_shiftLeft (a b k : Nat) :
    (a ^^^ b) <<< k = a <<< k ^^^ b <<< k := by
  apply Nat.eq_of_testBit_eq
  intro i
  simp only [Nat.testBit_shiftLeft, Nat.testBit_xor]
  cases h : decide (i ≥ k) <;> simp

theorem xor_shiftRight (a b k : Nat) :
    (a ^^^ b) >>> k = a >>> k ^^^ b >>> k := by
  apply Nat.eq_of_testBit_eq
  intro i
  simp only [Nat.testBit_shiftRight, Nat.testBit_xor]

theorem xor_xor_comm (a b c d : Nat) :
    (a ^^^ b) ^^^ (c ^^^ d) = (a ^^^ c) ^^^ (b ^^^ d) := by
  apply Nat.eq_of_testBit_eq
  intro i
  simp only [Nat.testBit_xor]
  cases a.testBit i <;> cases b.testBit i <;> cases c.testBit i <;> cases d.testBit i <;> rfl

theorem stepXL_xor (k a b : Nat) :
    stepXL k (a ^^^ b) = stepXL k a ^^^ stepXL k b := by
  unfold stepXL
  rw [xor_shiftLeft, xor_xor_comm, usizeSize, xor_mod_two_pow]

theorem stepXR_xor (k a b : Nat) :
    stepXR k (a ^^^ b) = stepXR k a ^^^ stepXR k b := by
  unfold stepXR
  rw [xor_shiftRight, xor_xor_comm, usizeSize, xor_mod_two_pow]

theorem rngStep_xor (a b : Nat) :
    rngStep (a ^^^ b) = rngStep a ^^^ rngStep b := by
  unfold rngStep
  rw [stepXL_xor, stepXR_xor, stepXL_xor]

theorem usizeSize_pos : 0 < usizeSize := by
  unfold usizeSize
  positivity

theorem stepXL_lt (k s : Nat) : stepXL k s < usizeSize :=
  Nat.mod_lt _ usizeSize_pos

theorem stepXR_lt (k s : Nat) : stepXR k s < usizeSize :=
  Nat.mod_lt _ usizeSize_pos

theorem rngStep_lt (s : Nat) : rngStep s < usizeSize :=
  stepXL_lt _ _

theorem stepXL_zero (k : Nat) : stepXL k 0 = 0 := by
  simp [stepXL]

theorem stepXR_zero (k : Nat) : stepXR k 0 = 0 := by
  simp [stepXR]

theorem rngStep_zero : rngStep 0 = 0 := by
  simp [rngStep, stepXL_zero, stepXR_zero]

theorem xor_cancel (a b : Nat) (h : a ^^^ b = 0) : a = b := by
  have : (a ^^^ b) ^^^ b = 0 ^^^ b := by rw [h]
  rwa [Nat.xor_assoc, Nat.xor_self, Nat.xor_zero, Nat.zero_xor] at this

theorem stepXL_ne_zero (k s : Nat) (hk : 1 ≤ k) (hs : s < usizeSize) (h0 : s ≠ 0) :
    stepXL k s ≠ 0 := by
  have hex : ∃ i, s.testBit i = true := by
    obtain ⟨i, hi⟩ := Nat.ne_zero_implies_bit_true h0
    exact ⟨i, hi⟩
  set j := Nat.find hex with hjdef
  have hj : s.testBit j = true := Nat.find_spec hex
  have hmin : ∀ l, l < j → s.testBit l = false := fun l hl => by
    have := Nat.find_min hex hl
    simpa using this
  have hjlt : j < 64 := by
    by_contra hge
    push_neg at hge
    have h2 : (2 : Nat) ^ 64 ≤ 2 ^ j := Nat.pow_le_pow_right (by omega) hge
    have h3 : (2 : Nat) ^ j ≤ s := Nat.testBit_implies_ge hj
    have h4 : s < 2 ^ 64 := hs
    omega
  intro hcontra
  have hbit : (stepXL k s).testBit j = false := by
    rw [hcontra]
    exact Nat.zero_testBit j
  rw [stepXL, usizeSize] at hbit
  simp only [Nat.testBit_mod_two_pow, Nat.testBit_xor, Nat.testBit_shiftLeft] at hbit
  rcases le_or_lt k j with hkj | hkj
  · have hlow : s.testBit (j - k) = false := hmin _ (by omega)
    rw [hj, hlow] at hbit
    simp [hjlt, hkj] at hbit
  · rw [hj] at hbit
    simp [hjlt, Nat.not_le.mpr hkj] at hbit

theorem stepXR_ne_zero (k s : Nat) (hk : 1 ≤ k) (hs : s < usizeSize) (h0 : s ≠ 0) :
    stepXR k s ≠ 0 := by
  unfold stepXR
  unfold usizeSize at hs ⊢
  have hsr : s >>> k ≤ s := by
    rw [Nat.shiftRight_eq_div_pow]
    exact Nat.div_le_self _ _
  rw [Nat.mod_eq_of_lt (Nat.xor_lt_two_pow hs (Nat.lt_of_le_of_lt hsr hs))]
  intro h
  have heq : s = s >>> k := xor_cancel _ _ h
  rw [Nat.shiftRight_eq_div_pow] at heq
  have : s / 2 ^ k < s := Nat.div_lt_self (by omega) (by
    have : (2 : Nat) ^ 1 ≤ 2 ^ k := Nat.pow_le_pow_right (by omega) hk
    omega)
  omega

theorem rngStep_ne_zero (s : Nat) (hs : s < usizeSize) (h0 : s ≠ 0) :
    rngStep s ≠ 0 :=
  stepXL_ne_zero 43 _ (by omega) (stepXR_lt _ _)
    (stepXR_ne_zero 17 _ (by omega) (stepXL_lt _ _)
      (stepXL_ne_zero 13 s (by omega) hs h0))

theorem rngStep_injOn (a b : Nat) (ha : a < usizeSize) (hb : b < usizeSize)
    (h : rngStep a = rngStep b) : a = b := by
  by_contra hne
  have hx0 : a ^^^ b ≠ 0 := fun hz => hne (xor_cancel a b hz)
  have hxlt : a ^^^ b < usizeSize := Nat.xor_lt_two_pow ha hb
  have hstep : rngStep (a ^^^ b) = 0 := by
    rw [rngStep_xor, h, Nat.xor_self]
  exact rngStep_ne_zero _ hxlt hx0 hstep

theorem rngIter_ne_zero (n : Nat) : ∀ s : Nat, s < usizeSize → s ≠ 0 → rngIter n s ≠ 0 := by
  induction n with
  | zero => exact fun s _ h0 => h0
  | succ n ih =>
      intro s hs h0
      exact ih (rngStep s) (rngStep_lt s) (rngStep_ne_zero s hs h0)

/-! ## Claim theorems -/

/-- C1 (counterexample): the claim that `range(0, activeCount - 1)` excludes
the last registered strategy is false: with PRNG seed 13 and the 14 base
strategies, the very first production call draws index 13, the index of the
last registered strategy (`Set`). -/
theorem mutate_can_select_last_strategy :
    selectedIndex (MutationEngine.new 0 (some (TestCase.new [1, 2, 3, 4]))
      (some 13) none none) = some 13 ∧
    (MutationEngine.new 0 (some (TestCase.new [1, 2, 3, 4]))
      (some 13) none none).mutators.length = 14 := by
  constructor <;> decide

/-- C1 (amended): `gen_range(0, activeCount - 1)` is inclusive on both ends,
so every production call selects an index that is at most
`activeCount - 1`; no active strategy is excluded (the last one CAN be
drawn, as the counterexample shows). -/
theorem mutate_selection_index_inclusive_bound (e : MutationEngine) (m : Nat)
    (h1 : 1 ≤ e.mutators.length) (h2 : e.mutators.length - 1 < usizeMax)
    (h : selectedIndex e = some m) :
    m ≤ e.mutators.length - 1 := by
  unfold selectedIndex selectIdx at h
  simp only [checkedSub, if_pos h1, bind, Option.some_bind] at h
  rcases Nat.eq_zero_or_pos (e.mutators.length - 1) with hz | hp
  · rw [hz] at h ⊢
    unfold genRange at h
    simp at h
    omega
  · rw [genRange_small _ _ hp h2] at h
    simp at h
    have := Nat.mod_lt e.prng (y := e.mutators.length - 1 + 1) (by omega)
    omega

/-- C1 (witness): the amended bound applied to a concrete engine whose
first call draws index 5 out of the 14 base strategies. -/
theorem mutate_selection_index_inclusive_bound_witness :
    5 ≤ (MutationEngine.new 0 (some (TestCase.new [1]))
      (some 5) none none).mutators.length - 1 :=
  mutate_selection_index_inclusive_bound _ 5 (by decide) (by decide) (by decide)

/-- C2 (code bug): an engine built with a dictionary but WITHOUT a corpus
has 15 active strategies, so the inclusive draw can return index 14 - which
the fixed dispatch map `get_mutator` sends to `Splice`, not to the
registered `InsertFromDict`; executing the dispatch then unwraps the absent
corpus and panics.  Seed 14 triggers it on the first call. -/
theorem splice_dispatch_without_corpus :
    selectedMutator (MutationEngine.new 0 (some (TestCase.new [1, 2]))
      (some 14) (some [[65, 66]]) none) = some Mutator.Splice ∧
    (MutationEngine.new 0 (some (TestCase.new [1, 2]))
      (some 14) (some [[65, 66]]) none).corpus = none ∧
    applyMutator { MutationEngine.new 0 (some (TestCase.new [1, 2]))
      (some 14) (some [[65, 66]]) none with mutator := Mutator.Splice } = none := by
  refine ⟨by decide, by decide, by decide⟩

/-- C3 (code bug): `truncate` casts the percentage FACTOR to an integer,
`(trunc * 0.01) as usize`, which is `0` for every drawn percentage in
`[0, 50]`, so the strategy never removes a byte: with a 100-byte buffer and
a draw of 40 the length stays 100 (the spec expects 60), and the buffer is
returned bit-identical. -/
theorem truncate_noop_at_failing_input :
    (truncate (⟨List.replicate 100 9, 100⟩, 40)).map (fun s => s.1.data.length) =
      some 100 ∧
    (truncate (⟨List.replicate 7 1, 7⟩, 33)).map (fun s => s.1.data) =
      some (List.replicate 7 1) := by
  constructor <;> decide

/-- C4 (counterexample): directly after default construction the tracked
logical length does not equal the element count: `TestCase::default` sets
`size = 4096` while `Vec::with_capacity(4096)` leaves `data` empty. -/
theorem default_testcase_size_mismatch :
    TestCase.default.size ≠ TestCase.default.data.length := by
  decide

/-- C4 (amended): `size` equals `data.len()` after `TestCase::new`
construction, but NOT at every observation point: default construction
starts with `size = 4096` over an empty buffer, and `delete_byte_range`
(DeleteRange) shrinks the data without updating `size` (here from 100 bytes
to 97 with `size` still 100). -/
theorem size_tracks_length_after_new_but_not_delete_range :
    (∀ d : List Nat, (TestCase.new d).size = (TestCase.new d).data.length) ∧
    (deleteByteRange (⟨List.replicate 100 5, 100⟩, 1)).map
      (fun s => (s.1.data.length, s.1.size)) = some (97, 100) := by
  constructor
  · intro d
    rfl
  · decide

/-- C5 (counterexample): no strategy checks its length precondition, and a
violating invocation is reachable: a corpus whose only entry is empty makes
the first production call (seed 15 selects BitFlip) resample a zero-length
buffer, after which BitFlip computes `gen_range(0, size - 1)` with
`size = 0` and the unsigned subtraction underflows (panic, modelled as
`none`). -/
theorem reachable_bitflip_underflow :
    mutate (MutationEngine.new 0 (some (TestCase.new [7]))
      (some 15) none (some [[]])) = none ∧
    selectedMutator (MutationEngine.new 0 (some (TestCase.new [7]))
      (some 15) none (some [[]])) = some Mutator.BitFlip := by
  constructor <;> decide

/-- C5 (amended): the strategies perform no explicit length verification;
the underflow-freedom of the range-bound subtractions holds only
conditionally, strategy by strategy, whenever its own precondition is met:
buffer length at least 1 for the single-byte strategies (BitFlip, ByteFlip,
NegateByte, CopyBytes, Set - the latter also needing the machine-word
bound) and for the `mutation_size` range strategies (DeleteBytes,
DeleteRange, CopyRange, Append, whose span is at most the buffer length
once the buffer is non-empty), at least 2 for neighbour swaps, at least 8
for the width-based strategies (SwapEndianness, Arithmetic,
InsertConstants); Truncate needs nothing; Splice's precondition is NOT a
buffer minimum alone - it additionally needs a non-empty corpus all of
whose entries are non-empty (an empty entry underflows its splice-offset
bound); and InsertFromDict needs every token of its non-empty dictionary to
fit in the buffer. -/
theorem strategy_preconditions_no_underflow :
    (∀ tc rng, 1 ≤ tc.size → (bitFlip (tc, rng)).isSome = true) ∧
    (∀ tc rng, 1 ≤ tc.size → (byteFlip (tc, rng)).isSome = true) ∧
    (∀ tc rng, 1 ≤ tc.size → (negateByte (tc, rng)).isSome = true) ∧
    (∀ tc rng, 2 ≤ tc.size → (swapNeighbors (tc, rng)).isSome = true) ∧
    (∀ tc rng, 8 ≤ tc.size → (swapWithWidth (tc, rng)).isSome = true) ∧
    (∀ tc rng, 8 ≤ tc.size → (arithmetic (tc, rng)).isSome = true) ∧
    (∀ tc rng, 1 ≤ tc.size → (deleteSingleBytes (tc, rng)).isSome = true) ∧
    (∀ tc rng, 1 ≤ tc.size → (deleteByteRange (tc, rng)).isSome = true) ∧
    (∀ tc rng, 1 ≤ tc.size → (copySingleBytes (tc, rng)).isSome = true) ∧
    (∀ tc rng, 1 ≤ tc.size → (copyByteRange (tc, rng)).isSome = true) ∧
    (∀ tc rng, 8 ≤ tc.size → (insertConstants (tc, rng)).isSome = true) ∧
    (∀ tc rng, (truncate ((tc : TestCase), (rng : Nat))).isSome = true) ∧
    (∀ tc rng, 1 ≤ tc.size → (append (tc, rng)).isSome = true) ∧
    (∀ tc rng, 1 ≤ tc.size → tc.size < usizeSize → (setMut (tc, rng)).isSome = true) ∧
    (∀ corp tc rng, 1 ≤ tc.size → corp ≠ [] → (∀ t ∈ corp, 1 ≤ t.length) →
      (splice corp (tc, rng)).isSome = true) ∧
    (∀ dict tc rng, dict ≠ [] → (∀ t ∈ dict, t.length ≤ tc.size) →
      (insertFromDict dict (tc, rng)).isSome = true) :=
  ⟨bitFlip_isSome, byteFlip_isSome, negateByte_isSome, swapNeighbors_isSome,
   swapWithWidth_isSome, arithmetic_isSome, deleteSingleBytes_isSome,
   deleteByteRange_isSome, copySingleBytes_isSome, copyByteRange_isSome,
   insertConstants_isSome, truncate_isSome, append_isSome, setMut_isSome,
   splice_isSome, insertFromDict_isSome⟩

/-- C5 (witness): BitFlip completes without underflow on an 8-byte
buffer. -/
theorem strategy_preconditions_no_underflow_witness :
    (bitFlip (⟨[5, 6, 7, 8, 9, 10, 11, 12], 8⟩, 0)).isSome = true :=
  strategy_preconditions_no_underflow.1 ⟨[5, 6, 7, 8, 9, 10, 11, 12], 8⟩ 0 (by decide)

/-- C6 (counterexample): the mutation-size helper draws `gen_range(0, 10)`,
which is inclusive, so `r = 10` is reachable (seed 10 returns it on the
first draw): for a 100-byte buffer the helper returns 12, exceeding the
claimed maximum `floor(100 * 10 / 100) + 1 = 11`. -/
theorem mutation_size_exceeds_claimed_bound :
    mutationSize ⟨List.replicate 100 0, 100⟩ 10 = some (12, rngStep 10) ∧
    100 * 10 / 100 + 1 < 12 := by
  constructor <;> decide

/-- C6 (amended): the helper returns
`floor(bufferLength * (r + 1) / 100) + 1` with `r` uniform over `[0, 10]`
(eleven values, not ten), hence the result lies between 1 and
`floor(bufferLength * 11 / 100) + 1`. -/
theorem mutation_size_bounds (tc : TestCase) (rng m r' : Nat)
    (h : mutationSize tc rng = some (m, r')) :
    1 ≤ m ∧ m ≤ tc.size * 11 / 100 + 1 := by
  rw [mutationSize_eq] at h
  simp only [Option.some.injEq, Prod.mk.injEq] at h
  obtain ⟨hm, _⟩ := h
  subst hm
  refine ⟨by omega, ?_⟩
  have hr : rng % 11 + 1 ≤ 11 := by omega
  have hmul : tc.size * (rng % 11 + 1) ≤ tc.size * 11 := Nat.mul_le_mul_left _ hr
  have : tc.size * (rng % 11 + 1) / 100 ≤ tc.size * 11 / 100 :=
    Nat.div_le_div_right hmul
  omega

/-- C6 (witness): the amended bounds at a concrete call (empty buffer,
PRNG state 0, helper returns 1). -/
theorem mutation_size_bounds_witness :
    1 ≤ 1 ∧ 1 ≤ (⟨([] : List Nat), 0⟩ : TestCase).size * 11 / 100 + 1 :=
  mutation_size_bounds ⟨[], 0⟩ 0 1 0 (by decide)

/-- C7: for every explicit non-zero seed the random source is
deterministic - the draw sequence does not depend on the hardware counter,
and the very first `rand` after seeding returns the seed itself verbatim
(the returned value is the pre-advance state). -/
theorem rng_deterministic_and_first_draw_is_seed (c1 c2 seed : Nat) (h : seed ≠ 0) :
    (∀ n, rngIter n (rngNew c1 seed) = rngIter n (rngNew c2 seed)) ∧
    (rand (rngNew c1 seed)).1 = seed := by
  have h1 : rngNew c1 seed = seed := by
    unfold rngNew
    rw [if_neg h]
  have h2 : rngNew c2 seed = seed := by
    unfold rngNew
    rw [if_neg h]
  rw [h1, h2]
  exact ⟨fun _ => rfl, rfl⟩

/-- C7 (witness): seed 1234 under two different counter values gives the
same third draw, and the first draw is 1234 itself. -/
theorem rng_deterministic_and_first_draw_is_seed_witness :
    rngIter 2 (rngNew 3 1234) = rngIter 2 (rngNew 77 1234) ∧
    (rand (rngNew 3 1234)).1 = 1234 :=
  ⟨(rng_deterministic_and_first_draw_is_seed 3 77 1234 (by decide)).1 2,
   (rng_deterministic_and_first_draw_is_seed 3 77 1234 (by decide)).2⟩

/-- C8: the Arithmetic strategy treats its 2-byte window as a big-endian
signed integer independent of byte order and adds or subtracts 1 with
wraparound: the window `0x7f 0xff` (holding 0x7FFF) increments to
`0x80 0x00`, and in general the written-back window is the big-endian
encoding of the incremented (resp. decremented) value modulo `2 ^ 16`. -/
theorem arithmetic_bigendian_wrapping :
    arithWindow 2 true [0x7f, 0xff] 0 = [0x80, 0x00] ∧
    (∀ b0 b1 : Nat, b0 < 256 → b1 < 256 →
      arithWindow 2 true [b0, b1] 0 =
        [(b0 * 256 + b1 + 1) % 65536 / 256, (b0 * 256 + b1 + 1) % 65536 % 256]) ∧
    (∀ b0 b1 : Nat, b0 < 256 → b1 < 256 →
      arithWindow 2 false [b0, b1] 0 =
        [(b0 * 256 + b1 + 65535) % 65536 / 256,
         (b0 * 256 + b1 + 65535) % 65536 % 256]) := by
  refine ⟨by decide, ?_, ?_⟩
  · intro b0 b1 hb0 hb1
    have hread : beReadPat [b0, b1] 0 2 = b0 * 256 + b1 := by
      simp [beReadPat, List.range_succ]
    have hwrite : ∀ p : Nat, beWrite [b0, b1] 0 2 p = [p / 256 % 256, p % 256] := by
      intro p
      simp [beWrite, List.range_succ, List.set]
    have hp2 : ((toSigned (8 * 2) (beReadPat [b0, b1] 0 2) + 1) %
        ((2 : Int) ^ (8 * 2))).toNat = (b0 * 256 + b1 + 1) % 65536 := by
      rw [hread]
      unfold toSigned
      have e1 : (2 : Int) ^ (8 * 2) = 65536 := by norm_num
      have e2 : (2 : Nat) ^ (8 * 2 - 1) = 32768 := by norm_num
      rw [e1, e2]
      split_ifs with hlt <;> omega
    have hdiv : (b0 * 256 + b1 + 1) % 65536 / 256 % 256 =
        (b0 * 256 + b1 + 1) % 65536 / 256 := by omega
    calc arithWindow 2 true [b0, b1] 0
        = beWrite [b0, b1] 0 2
            ((toSigned (8 * 2) (beReadPat [b0, b1] 0 2) + 1) %
              ((2 : Int) ^ (8 * 2))).toNat := by rfl
      _ = [(b0 * 256 + b1 + 1) % 65536 / 256, (b0 * 256 + b1 + 1) % 65536 % 256] := by
          rw [hp2, hwrite, hdiv]
  · intro b0 b1 hb0 hb1
    have hread : beReadPat [b0, b1] 0 2 = b0 * 256 + b1 := by
      simp [beReadPat, List.range_succ]
    have hwrite : ∀ p : Nat, beWrite [b0, b1] 0 2 p = [p / 256 % 256, p % 256] := by
      intro p
      simp [beWrite, List.range_succ, List.set]
    have hp2 : ((toSigned (8 * 2) (beReadPat [b0, b1] 0 2) - 1) %
        ((2 : Int) ^ (8 * 2))).toNat = (b0 * 256 + b1 + 65535) % 65536 := by
      rw [hread]
      unfold toSigned
      have e1 : (2 : Int) ^ (8 * 2) = 65536 := by norm_num
      have e2 : (2 : Nat) ^ (8 * 2 - 1) = 32768 := by norm_num
      rw [e1, e2]
      split_ifs with hlt <;> omega
    have hdiv : (b0 * 256 + b1 + 65535) % 65536 / 256 % 256 =
        (b0 * 256 + b1 + 65535) % 65536 / 256 := by omega
    calc arithWindow 2 false [b0, b1] 0
        = beWrite [b0, b1] 0 2
            ((toSigned (8 * 2) (beReadPat [b0, b1] 0 2) - 1) %
              ((2 : Int) ^ (8 * 2))).toNat := by rfl
      _ = [(b0 * 256 + b1 + 65535) % 65536 / 256,
           (b0 * 256 + b1 + 65535) % 65536 % 256] := by
          rw [hp2, hwrite, hdiv]

/-- C8 (witness): the general big-endian increment formula applied to the
window `0x12 0x34`. -/
theorem arithmetic_bigendian_wrapping_witness :
    arithWindow 2 true [0x12, 0x34] 0 =
      [(0x12 * 256 + 0x34 + 1) % 65536 / 256, (0x12 * 256 + 0x34 + 1) % 65536 % 256] :=
  arithmetic_bigendian_wrapping.2.1 0x12 0x34 (by decide) (by decide)

/-- C9: whenever the working buffer satisfies the strategy's length
precondition (and the tracked size matches the element count, as it does at
every dispatch point), each of BitFlip, ByteFlip, NegateByte,
SwapNeighbors, SwapEndianness, Arithmetic, CopyBytes, CopyRange,
InsertConstants, Set and InsertFromDict leaves the buffer's element count
unchanged. -/
theorem size_preserving_strategies_keep_length :
    (∀ tc rng out, tc.size = tc.data.length → 1 ≤ tc.size →
      bitFlip (tc, rng) = some out → out.1.data.length = tc.data.length) ∧
    (∀ tc rng out, tc.size = tc.data.length → 1 ≤ tc.size →
      byteFlip (tc, rng) = some out → out.1.data.length = tc.data.length) ∧
    (∀ tc rng out, tc.size = tc.data.length → 1 ≤ tc.size →
      negateByte (tc, rng) = some out → out.1.data.length = tc.data.length) ∧
    (∀ tc rng out, tc.size = tc.data.length → 2 ≤ tc.size →
      swapNeighbors (tc, rng) = some out → out.1.data.length = tc.data.length) ∧
    (∀ tc rng out, tc.size = tc.data.length → 8 ≤ tc.size →
      swapWithWidth (tc, rng) = some out → out.1.data.length = tc.data.length) ∧
    (∀ tc rng out, tc.size = tc.data.length → 8 ≤ tc.size →
      arithmetic (tc, rng) = some out → out.1.data.length = tc.data.length) ∧
    (∀ tc rng out, tc.size = tc.data.length → 1 ≤ tc.size →
      copySingleBytes (tc, rng) = some out → out.1.data.length = tc.data.length) ∧
    (∀ tc rng out, tc.size = tc.data.length → 1 ≤ tc.size →
      copyByteRange (tc, rng) = some out → out.1.data.length = tc.data.length) ∧
    (∀ tc rng out, tc.size = tc.data.length → 8 ≤ tc.size →
      insertConstants (tc, rng) = some out → out.1.data.length = tc.data.length) ∧
    (∀ tc rng out, tc.size = tc.data.length → 1 ≤ tc.size →
      setMut (tc, rng) = some out → out.1.data.length = tc.data.length) ∧
    (∀ dict tc rng out, tc.size = tc.data.length →
      (∀ t ∈ dict, t.length ≤ tc.size) →
      insertFromDict dict (tc, rng) = some out → out.1.data.length = tc.data.length) :=
  ⟨fun tc rng out _ _ h => (bitFlip_frame tc rng out h).1,
   fun tc rng out _ _ h => (byteFlip_frame tc rng out h).1,
   fun tc rng out _ _ h => (negateByte_frame tc rng out h).1,
   fun tc rng out _ _ h => (swapNeighbors_frame tc rng out h).1,
   fun tc rng out _ _ h => (swapWithWidth_frame tc rng out h).1,
   fun tc rng out _ _ h => (arithmetic_frame tc rng out h).1,
   fun tc rng out _ _ h => (copySingleBytes_frame tc rng out h).1,
   fun tc rng out _ _ h => (copyByteRange_pres (tc, rng) out h).1,
   fun tc rng out _ _ h => (insertConstants_frame tc rng out h).1,
   fun tc rng out _ _ h => (setMut_pres (tc, rng) out h).1,
   fun dict tc rng out _ _ h => (insertFromDict_frame dict tc rng out h).1⟩

/-- C9 (witness): BitFlip on an 8-byte buffer with PRNG state 0 flips bit 0
of byte 0 and keeps the length at 8. -/
theorem size_preserving_strategies_keep_length_witness :
    (⟨[4, 6, 7, 8, 9, 10, 11, 12], 8⟩ : TestCase).data.length =
      (⟨[5, 6, 7, 8, 9, 10, 11, 12], 8⟩ : TestCase).data.length :=
  size_preserving_strategies_keep_length.1 ⟨[5, 6, 7, 8, 9, 10, 11, 12], 8⟩ 0
    ((⟨[4, 6, 7, 8, 9, 10, 11, 12], 8⟩ : TestCase), 0)
    (by decide) (by decide) (by decide)

/-- C10: the per-draw state update of the PRNG is injective on the machine
word (hence invertible as a map of the finite state space), fixes 0, and
therefore every state reached from a non-zero seed stays non-zero - the
all-zero output sequence is reachable only from initial state 0. -/
theorem rng_step_invertible_zero_fixed_nonzero_invariant :
    (∀ a b, a < usizeSize → b < usizeSize → rngStep a = rngStep b → a = b) ∧
    rngStep 0 = 0 ∧
    (∀ s n, s ≠ 0 → s < usizeSize → rngIter n s ≠ 0) :=
  ⟨rngStep_injOn, rngStep_zero, fun s n h0 hs => rngIter_ne_zero n s hs h0⟩

/-- C10 (witness): from the non-zero seed 1234 the state after three draws
is still non-zero. -/
theorem rng_step_invertible_zero_fixed_nonzero_invariant_witness :
    (1234 : Nat) ≠ 0 ∧ rngIter 3 1234 ≠ 0 :=
  ⟨by decide,
   rng_step_invertible_zero_fixed_nonzero_invariant.2.2 1234 3 (by decide) (by decide)⟩

end Hantu
